import Mathlib

/-!
Verification of the WordFlux word-frequency system against its specification.

The development shallowly embeds the core of the repository:
`normalizeLine`, `countWords`, `getTopWords`, `mapToObject`, `objectToMap`
and `mergeMaps` from `src/wordCounter.js`, the worker wrapper from
`src/worker.js`, and the batch scheduler `processFilesInParallel` from
`src/parallelProcessor.js`.

A JavaScript `Map` is modelled as an association list in insertion order
(`FreqMap`); `Map.prototype.get` and `Map.prototype.set` become `mapGet`
and `mapSet`.  File contents are modelled as the list of lines the
`readline` interface would deliver; the file system is a partial function
from paths to entries.  Machine integers do not overflow in the modelled
ranges, so counts are `Nat`.
-/

/-- A JavaScript `Map` from string tokens to counts, as an association list
in insertion order.  Maps built by the program always have pairwise
distinct keys (`keysNodup`). -/
abbrev FreqMap := List (String × Nat)

/-- `Map.prototype.get`: the value stored at the first entry with the given
key, or `none` (JS `undefined`) when the key is absent. -/
def mapGet : FreqMap → String → Option Nat
  | [], _ => none
  | (k', v) :: rest, k => if k' = k then some v else mapGet rest k

/-- `(map.get(k) || 0)` as used throughout `wordCounter.js`: the stored
count, with absence read as `0`. -/
def getCount (m : FreqMap) (k : String) : Nat := (mapGet m k).getD 0

/-- `Map.prototype.set`: replace the value at an existing key in place
(keeping its position), otherwise append the new entry. -/
def mapSet : FreqMap → String → Nat → FreqMap
  | [], k, v => [(k, v)]
  | (k', v') :: rest, k, v =>
    if k' = k then (k, v) :: rest else (k', v') :: mapSet rest k v

/-- Total count contributed by all entries of `m` whose key is `t`.
For a map with pairwise distinct keys this coincides with `getCount`. -/
def entrySum : FreqMap → String → Nat
  | [], _ => 0
  | (k, v) :: rest, t => (if k = t then v else 0) + entrySum rest t

/-- Inner loop of `mergeMaps` (`src/wordCounter.js` lines 185-189): fold one
map into the accumulator with `merged.set(word, (merged.get(word) || 0) + count)`. -/
def mergeOne : FreqMap → FreqMap → FreqMap
  | merged, [] => merged
  | merged, (w, c) :: rest => mergeOne (mapSet merged w (getCount merged w + c)) rest

/-- Outer loop of `mergeMaps`: fold every map of the list into the accumulator. -/
def mergeAll : FreqMap → List FreqMap → FreqMap
  | merged, [] => merged
  | merged, m :: rest => mergeAll (mergeOne merged m) rest

/-- `mergeMaps` from `src/wordCounter.js`: combine a list of frequency maps
into one, summing the counts, starting from `new Map()`. -/
def mergeMaps (maps : List FreqMap) : FreqMap := mergeAll [] maps

/-- The sum of all counts stored in a frequency map. -/
def sumCounts (m : FreqMap) : Nat := (m.map Prod.snd).sum

/-- The keys of the map are pairwise distinct, as is automatic for a real
JavaScript `Map`. -/
def keysNodup (m : FreqMap) : Prop := (m.map Prod.fst).Nodup

instance (m : FreqMap) : Decidable (keysNodup m) := by
  unfold keysNodup; infer_instance

/-- The `\w` class of the normalizer regex (ASCII letters, digits and the
underscore), decided on the character's code point. -/
def isWordChar (c : Char) : Bool :=
  (decide (97 ≤ c.toNat) && decide (c.toNat ≤ 122)) ||
  (decide (65 ≤ c.toNat) && decide (c.toNat ≤ 90)) ||
  (decide (48 ≤ c.toNat) && decide (c.toNat ≤ 57)) ||
  decide (c.toNat = 95)

/-- The `\s` class of JavaScript regexes: tab, line feed, vertical tab, form
feed, carriage return, space, no-break space, ogham space mark, the
en-quad..hair-space block, line and paragraph separators, narrow no-break
space, medium mathematical space, ideographic space and the BOM. -/
def isWsChar (c : Char) : Bool :=
  (decide (9 ≤ c.toNat) && decide (c.toNat ≤ 13)) ||
  decide (c.toNat = 32) || decide (c.toNat = 160) || decide (c.toNat = 5760) ||
  (decide (8192 ≤ c.toNat) && decide (c.toNat ≤ 8202)) ||
  decide (c.toNat = 8232) || decide (c.toNat = 8233) || decide (c.toNat = 8239) ||
  decide (c.toNat = 8287) || decide (c.toNat = 12288) || decide (c.toNat = 65279)

/-- Code points of the lowercase accented letters listed in the normalizer
regex class: á é í ó ú ñ ü à è ì ò ù â ê î ô û ä ë ï ö ü (ü appears twice
in the source, as here). -/
def accentLowerCodes : List Nat :=
  [225, 233, 237, 243, 250, 241, 252, 224, 232, 236, 242, 249,
   226, 234, 238, 244, 251, 228, 235, 239, 246, 252]

/-- Code points of the uppercase forms Á É Í Ó Ú Ñ Ü À È Ì Ò Ù Â Ê Î Ô Û
Ä Ë Ï Ö Ü, which the regex's `i` flag also admits. -/
def accentUpperCodes : List Nat :=
  [193, 201, 205, 211, 218, 209, 220, 192, 200, 204, 210, 217,
   194, 202, 206, 212, 219, 196, 203, 207, 214, 220]

/-- Membership in the accented-letter part of the regex class
`[^\w\sáéíóúñüàèìòùâêîôûäëïöü]` with the `i` flag. -/
def isAccentChar (c : Char) : Bool :=
  decide (c.toNat ∈ accentLowerCodes) || decide (c.toNat ∈ accentUpperCodes)

/-- A character the replacement regex leaves alone: word class, whitespace,
or one of the listed accented letters. -/
def isKeepChar (c : Char) : Bool := isWordChar c || isWsChar c || isAccentChar c

/-- `String.prototype.toLowerCase`, restricted to the alphabet the
normalizer can keep: ASCII `A`-`Z` and the Latin-1 uppercase accented
letters of the regex class all lower by adding 32; every other modelled
character is unchanged. -/
def jsToLowerChar (c : Char) : Char :=
  if (decide (65 ≤ c.toNat) && decide (c.toNat ≤ 90)) || decide (c.toNat ∈ accentUpperCodes)
  then Char.ofNat (c.toNat + 32) else c

/-- `.replace(/[^\w\sáéíóúñüàèìòùâêîôûäëïöü]/gi, ' ')` acting on one
character. -/
def replaceChar (c : Char) : Char := if isKeepChar c then c else ' '

/-- `String.prototype.split(/\s+/)`: cut the character list at every maximal
run of whitespace.  `acc` holds the characters of the piece under
construction in reverse; `inSep` records that the previous character ended
a separator run (so a fresh run is not cut again).  Leading and trailing
separator runs produce empty pieces, exactly as in JavaScript. -/
def splitWsAux : List Char → List Char → Bool → List (List Char)
  | [], acc, inSep => if inSep then [[]] else [acc.reverse]
  | c :: rest, acc, inSep =>
    if isWsChar c then
      if inSep then splitWsAux rest [] true
      else acc.reverse :: splitWsAux rest [] true
    else splitWsAux rest (c :: acc) false

/-- `normalizeLine` from `src/wordCounter.js`: lowercase, replace every
character outside the kept class by a space, split on whitespace runs, and
keep only the non-empty words. -/
def normalizeLine (line : String) : List String :=
  ((splitWsAux ((line.data.map jsToLowerChar).map replaceChar) [] false).map
      (fun cs => String.mk cs)).filter (fun w => decide (0 < w.length))

/-- Maximal runs of characters satisfying `p`, in order; `acc` holds the run
under construction in reverse. -/
def runsAux (p : Char → Bool) : List Char → List Char → List (List Char)
  | [], acc => if acc.isEmpty then [] else [acc.reverse]
  | c :: rest, acc =>
    if p c then runsAux p rest (c :: acc)
    else if acc.isEmpty then runsAux p rest [] else acc.reverse :: runsAux p rest []

/-- A character that can appear inside a token: a word-class character or an
accented letter of the normalizer's class. -/
def isTokenChar (c : Char) : Bool := isWordChar c || isAccentChar c

/-- The amended description of the normalizer, stated independently of the
replace/split mechanism: lowercase the line, then read off the maximal runs
of characters of the code's keep class — ASCII word characters and the
regex class's enumerated accented letters.  Every other character,
whitespace or not (including accented letters outside the enumerated
class), separates tokens, and empty results are discarded. -/
def normalizeLineSpec (line : String) : List String :=
  (runsAux isTokenChar (line.data.map jsToLowerChar) []).map (fun cs => String.mk cs)

/-- The claim's unrestricted reading of `a letter (including accented
letters)`, decidably modelled as the ASCII letters together with every
Latin-1 Supplement letter (code points 192-255 without the multiplication
and division signs 215 and 247).  This includes letters such as `ç` (231)
and `ã` (227) that the code's regex class omits. -/
def isLetterCharClaim (c : Char) : Bool :=
  (decide (97 ≤ c.toNat) && decide (c.toNat ≤ 122)) ||
  (decide (65 ≤ c.toNat) && decide (c.toNat ≤ 90)) ||
  (decide (192 ≤ c.toNat) && decide (c.toNat ≤ 255) &&
    !(decide (c.toNat = 215)) && !(decide (c.toNat = 247)))

/-- A digit/underscore-class character in the claim's wording: an ASCII
digit or the underscore. -/
def isDigitUnderscoreChar (c : Char) : Bool :=
  (decide (48 ≤ c.toNat) && decide (c.toNat ≤ 57)) || decide (c.toNat = 95)

/-- A character the claim's replacement step keeps: a letter in the
unrestricted reading, a digit/underscore-class character, or whitespace. -/
def isKeepCharClaim (c : Char) : Bool :=
  isLetterCharClaim c || isDigitUnderscoreChar c || isWsChar c

/-- The claim's replacement step acting on one character: every character
outside the claim's keep class becomes a single space. -/
def replaceCharClaim (c : Char) : Char := if isKeepCharClaim c then c else ' '

/-- The normalizer algorithm exactly as the claim words it: lowercase the
line, replace every character that is not a letter (including accented
letters, unrestricted), a digit/underscore-class character, or whitespace
with a single space, split on runs of whitespace, and discard the empty
results. -/
def normalizeLineClaim (line : String) : List String :=
  ((splitWsAux ((line.data.map jsToLowerChar).map replaceCharClaim) [] false).map
      (fun cs => String.mk cs)).filter (fun w => decide (0 < w.length))

/-- A file-system entry: a directory, or a regular file given as the list of
lines `readline` would deliver. -/
inductive FsEntry where
  | directory : FsEntry
  | file (lines : List String) : FsEntry
deriving DecidableEq

/-- The file system visible to a scan: paths map to entries, `none` means
the path does not exist (`fs.existsSync` is false). -/
abbrev FS := String → Option FsEntry

/-- The errors `countWords` throws before opening the stream, identified in
the source by the `ENOENT:` / `EISDIR:` prefix of the thrown message. -/
inductive CountError where
  | notFound : CountError
  | isDirectory : CountError
deriving DecidableEq

/-- The record resolved by `countWords`:
`{ wordMap, totalWords, uniqueWords, linesProcessed }`. -/
structure CountResult where
  wordMap : FreqMap
  totalWords : Nat
  uniqueWords : Nat
  linesProcessed : Nat
deriving DecidableEq

/-- One step of the word loop of `countWords`:
`wordMap.set(word, (wordMap.get(word) || 0) + 1)`. -/
def addWord (m : FreqMap) (w : String) : FreqMap := mapSet m w (getCount m w + 1)

/-- One iteration of the line loop of `countWords`: normalize the line and
fold every word into the map while incrementing `totalWords` (the second
component). -/
def countLine (st : FreqMap × Nat) (line : String) : FreqMap × Nat :=
  (normalizeLine line).foldl (fun st w => (addWord st.1 w, st.2 + 1)) st

/-- `countWords` from `src/wordCounter.js`: fail with `ENOENT` when the path
does not exist and with `EISDIR` when it names a directory, both before any
stream is opened; otherwise scan the lines, building the frequency map and
the totals (`uniqueWords` is `wordMap.size`, `linesProcessed` the number of
lines).  Progress callbacks are observational only and are not modelled. -/
def countWords (fs : FS) (filePath : String) : Except CountError CountResult :=
  match fs filePath with
  | none => Except.error CountError.notFound
  | some FsEntry.directory => Except.error CountError.isDirectory
  | some (FsEntry.file lines) =>
    let st := lines.foldl countLine ([], 0)
    Except.ok ⟨st.1, st.2, st.1.length, lines.length⟩

/-- Comparison used by `getTopWords`'s sort callback `(a, b) => b[1] - a[1]`:
`a` may come before `b` when `a`'s count is at least `b`'s. -/
def countGe (a b : String × Nat) : Prop := b.2 ≤ a.2

instance : DecidableRel countGe := fun a b => Nat.decLe b.2 a.2

instance : IsTotal (String × Nat) countGe := ⟨fun a b => Nat.le_total b.2 a.2⟩

instance : IsTrans (String × Nat) countGe := ⟨fun _ _ _ h₁ h₂ => Nat.le_trans h₂ h₁⟩

/-- `getTopWords` from `src/wordCounter.js`: sort the entries by count
descending and keep the first `n`.  `Array.prototype.sort` is stable, and
insertion sort with `countGe` computes exactly that stable descending
order. -/
def getTopWords (wordMap : FreqMap) (n : Nat) : List (String × Nat) :=
  (wordMap.insertionSort countGe).take n

/-- A plain JavaScript object with numeric values, as its ordered list of
own enumerable string properties.  (JavaScript additionally enumerates
integer-like keys first; that reordering never changes which pairs the
object holds, which is all the development states about objects.) -/
abbrev JsObj := List (String × Nat)

/-- The assignment `obj[key] = value` on a plain object.  For the key
`"__proto__"` the assignment finds the inherited accessor of
`Object.prototype`, whose setter ignores a non-object value, so no own
property is created and the object is unchanged. -/
def jsObjSet (obj : JsObj) (k : String) (v : Nat) : JsObj :=
  if k = "__proto__" then obj else mapSet obj k v

/-- `mapToObject` from `src/wordCounter.js`: copy the map's entries into a
fresh plain object with `obj[key] = value`. -/
def mapToObject (wordMap : FreqMap) : JsObj :=
  wordMap.foldl (fun obj p => jsObjSet obj p.1 p.2) []

/-- `objectToMap` from `src/wordCounter.js`: `new Map(Object.entries(obj))`,
i.e. insert the object's entries into a fresh map in order. -/
def objectToMap (obj : JsObj) : FreqMap :=
  obj.foldl (fun m p => mapSet m p.1 p.2) []

/-- The `data` field of a worker's completion message: the frequency map
serialized with `mapToObject`, plus the totals. -/
structure WorkerData where
  wordMap : JsObj
  totalWords : Nat
  uniqueWords : Nat
  linesProcessed : Nat
deriving DecidableEq

/-- The terminal message a worker posts for its file (`src/worker.js`):
success with the serialized results, or failure with the error of the
scan. -/
inductive WorkerMsg where
  | success (filePath : String) (data : WorkerData) : WorkerMsg
  | failure (filePath : String) (error : CountError) : WorkerMsg
deriving DecidableEq

/-- `processFile` from `src/worker.js`: run `countWords` on the worker's
file and post exactly one terminal message — the serialized results on
success, the caught error otherwise. -/
def runWorker (fs : FS) (filePath : String) : WorkerMsg :=
  match countWords fs filePath with
  | Except.ok r =>
    WorkerMsg.success filePath ⟨mapToObject r.wordMap, r.totalWords, r.uniqueWords, r.linesProcessed⟩
  | Except.error e => WorkerMsg.failure filePath e

/-- An element of `results.successful` in `processFilesInParallel`
(`duration` is wall-clock time and is not modelled). -/
structure SuccessEntry where
  filePath : String
  uniqueWords : Nat
  totalWords : Nat
  linesProcessed : Nat
deriving DecidableEq

/-- An element of `results.failed`: the path and the error of that file. -/
structure FailedEntry where
  filePath : String
  error : CountError
deriving DecidableEq

/-- The aggregate record returned by `processFilesInParallel`. -/
structure AggregateResult where
  successful : List SuccessEntry
  failed : List FailedEntry
  combinedWordMap : FreqMap
  totalWords : Nat
  totalUniqueWords : Nat
  totalLinesProcessed : Nat
deriving DecidableEq

/-- The aggregate with empty lists, an empty combined map, and all totals
zero, as built at the top of `processFilesInParallel`. -/
def emptyAggregate : AggregateResult := ⟨[], [], [], 0, 0, 0⟩

/-- The per-result branch of the batch loop of `processFilesInParallel`
(`src/parallelProcessor.js` lines 146-169): push a success onto
`successful`, merge its deserialized map into `combinedWordMap` and add its
totals, or push a failure onto `failed`. -/
def applyResult (st : AggregateResult) (msg : WorkerMsg) : AggregateResult :=
  match msg with
  | WorkerMsg.success p d =>
    ⟨st.successful ++ [⟨p, d.uniqueWords, d.totalWords, d.linesProcessed⟩],
     st.failed,
     mergeMaps [st.combinedWordMap, objectToMap d.wordMap],
     st.totalWords + d.totalWords,
     st.totalUniqueWords,
     st.totalLinesProcessed + d.linesProcessed⟩
  | WorkerMsg.failure p e =>
    ⟨st.successful, st.failed ++ [⟨p, e⟩], st.combinedWordMap,
     st.totalWords, st.totalUniqueWords, st.totalLinesProcessed⟩

/-- Effective concurrency of the scheduler:
`Math.max(1, Math.min(maxWorkers, files.length, numCPUs))`.  The configured
value may be zero or negative, hence the integer minimum under a floor of
one. -/
def effectiveWorkers (maxWorkers : Int) (fileCount numCPUs : Nat) : Nat :=
  (max 1 (min maxWorkers (min (fileCount : Int) (numCPUs : Int)))).toNat

/-- Batch partition of the file list: the loop
`for (let i = 0; i < files.length; i += effectiveWorkers)` with
`files.slice(i, i + effectiveWorkers)`.  The fuel argument bounds the
recursion by the length of the list and never runs out when it starts at
that length. -/
def mkBatchesAux (E : Nat) : Nat → List α → List (List α)
  | _, [] => []
  | 0, _ => []
  | fuel + 1, f :: rest => (f :: rest.take (E - 1)) :: mkBatchesAux E fuel (rest.drop (E - 1))

/-- The consecutive batches of size `E` (last possibly smaller) that the
scheduler processes, in order. -/
def mkBatches (E : Nat) (files : List α) : List (List α) :=
  mkBatchesAux E files.length files

/-- `processFilesInParallel` from `src/parallelProcessor.js`: return the
empty aggregate for an empty list before creating any worker; otherwise cut
the files into batches of the effective concurrency, run one worker per
file of a batch (`Promise.all` delivers their terminal messages in batch
order), fold every message into the aggregate, and finally set
`totalUniqueWords` to the size of the combined map.  `maxWorkers` is the
configured `options.maxWorkers` (`none` models an absent option, defaulted
to `numCPUs` by `?? os.cpus().length`). -/
def processFilesInParallel (fs : FS) (files : List String)
    (maxWorkers : Option Int) (numCPUs : Nat) : AggregateResult :=
  if files.isEmpty then emptyAggregate
  else
    let E := effectiveWorkers (maxWorkers.getD (numCPUs : Int)) files.length numCPUs
    let st := (mkBatches E files).foldl
      (fun st batch => (batch.map (runWorker fs)).foldl applyResult st) emptyAggregate
    ⟨st.successful, st.failed, st.combinedWordMap, st.totalWords,
     st.combinedWordMap.length, st.totalLinesProcessed⟩

/-- Number of `createWorker` calls `processFilesInParallel` performs: none
when the early return for an empty list fires, otherwise one per file of
every batch. -/
def workerLaunches (files : List String) (maxWorkers : Option Int) (numCPUs : Nat) : Nat :=
  if files.isEmpty then 0
  else ((mkBatches (effectiveWorkers (maxWorkers.getD (numCPUs : Int)) files.length numCPUs)
      files).map List.length).sum

/-- The failures the run records, read off directly from the outcome of
each file's scan, in input order. -/
def failedSpec (fs : FS) (files : List String) : List FailedEntry :=
  files.filterMap (fun p =>
    match countWords fs p with
    | Except.error e => some ⟨p, e⟩
    | Except.ok _ => none)

/-- The successes the run records, read off directly from the outcome of
each file's scan, in input order. -/
def successSpec (fs : FS) (files : List String) : List SuccessEntry :=
  files.filterMap (fun p =>
    match countWords fs p with
    | Except.ok r => some ⟨p, r.uniqueWords, r.totalWords, r.linesProcessed⟩
    | Except.error _ => none)

/-- The count mass each successful file contributes to the combined map:
the sum of the counts that survive the worker-boundary serialization
round trip. -/
def transmittedSum (fs : FS) (files : List String) : Nat :=
  (files.filterMap (fun p =>
    match countWords fs p with
    | Except.ok r => some (sumCounts (objectToMap (mapToObject r.wordMap)))
    | Except.error _ => none)).sum

/-- Example file system for the three-file error-isolation scenario: two
regular files and one path that does not exist. -/
def fsThree : FS := fun p =>
  if p = "a.txt" then some (FsEntry.file ["hola mundo"])
  else if p = "c.txt" then some (FsEntry.file ["hola"])
  else none

/-- Example file system exhibiting the serialization loss: one file whose
single line is the word `__proto__`. -/
def fsProto : FS := fun p =>
  if p = "f.txt" then some (FsEntry.file ["__proto__"]) else none

/-- Example file system with a single directory entry. -/
def fsDir : FS := fun p =>
  if p = "d" then some FsEntry.directory else none

theorem getCount_nil (t : String) : getCount [] t = 0 := rfl

theorem getCount_cons (k : String) (v : Nat) (rest : FreqMap) (t : String) :
    getCount ((k, v) :: rest) t = if k = t then v else getCount rest t := by
  simp only [getCount, mapGet]
  split <;> rfl

theorem getCount_mapSet (m : FreqMap) (k : String) (v : Nat) (t : String) :
    getCount (mapSet m k v) t = if k = t then v else getCount m t := by
  induction m with
  | nil => simp only [mapSet, getCount_cons, getCount_nil]
  | cons p rest ih =>
    obtain ⟨k', v'⟩ := p
    by_cases hk : k' = k
    · subst hk
      simp only [mapSet, if_pos rfl, getCount_cons]
      by_cases ht : k' = t <;> simp [ht, getCount_cons]
    · simp only [mapSet, if_neg hk, getCount_cons, ih]
      by_cases ht : k' = t
      · subst ht
        simp [Ne.symm hk]
      · simp [ht]

theorem getCount_mergeOne (m : FreqMap) :
    ∀ (acc : FreqMap) (t : String),
      getCount (mergeOne acc m) t = getCount acc t + entrySum m t := by
  induction m with
  | nil => intro acc t; simp [mergeOne, entrySum]
  | cons p rest ih =>
    intro acc t
    obtain ⟨w, c⟩ := p
    simp only [mergeOne, entrySum, ih, getCount_mapSet]
    by_cases h : w = t
    · subst h; simp; omega
    · simp [h]

theorem getCount_mergeAll (ms : List FreqMap) :
    ∀ (acc : FreqMap) (t : String),
      getCount (mergeAll acc ms) t =
        getCount acc t + (ms.map (fun m => entrySum m t)).sum := by
  induction ms with
  | nil => intro acc t; simp [mergeAll]
  | cons m rest ih =>
    intro acc t
    simp only [mergeAll, ih, getCount_mergeOne, List.map_cons, List.sum_cons]
    omega

theorem getCount_mergeMaps (ms : List FreqMap) (t : String) :
    getCount (mergeMaps ms) t = (ms.map (fun m => entrySum m t)).sum := by
  simp [mergeMaps, getCount_mergeAll, getCount_nil]

theorem keys_mapSet (m : FreqMap) (k : String) (v : Nat) :
    (mapSet m k v).map Prod.fst =
      if k ∈ m.map Prod.fst then m.map Prod.fst else m.map Prod.fst ++ [k] := by
  induction m with
  | nil => simp [mapSet]
  | cons p rest ih =>
    obtain ⟨k', v'⟩ := p
    by_cases hk : k' = k
    · subst hk; simp [mapSet]
    · simp only [mapSet, if_neg hk, List.map_cons, ih, List.mem_cons]
      by_cases hm : k ∈ rest.map Prod.fst
      · simp [hm]
      · simp [hm, Ne.symm hk]

theorem keysNodup_mapSet (m : FreqMap) (k : String) (v : Nat)
    (h : keysNodup m) : keysNodup (mapSet m k v) := by
  unfold keysNodup at *
  rw [keys_mapSet]
  by_cases hm : k ∈ m.map Prod.fst
  · simpa [hm]
  · simp only [hm, if_false]
    rw [List.nodup_append]
    refine ⟨h, List.nodup_singleton k, ?_⟩
    intro a ha hb
    simp only [List.mem_singleton] at hb
    subst hb
    exact hm ha

theorem keysNodup_mergeOne (m : FreqMap) :
    ∀ acc : FreqMap, keysNodup acc → keysNodup (mergeOne acc m) := by
  induction m with
  | nil => intro acc h; simpa [mergeOne]
  | cons p rest ih =>
    intro acc h
    obtain ⟨w, c⟩ := p
    exact ih _ (keysNodup_mapSet _ _ _ h)

theorem keysNodup_mergeAll (ms : List FreqMap) :
    ∀ acc : FreqMap, keysNodup acc → keysNodup (mergeAll acc ms) := by
  induction ms with
  | nil => intro acc h; simpa [mergeAll]
  | cons m rest ih => intro acc h; exact ih _ (keysNodup_mergeOne _ _ h)

theorem keysNodup_mergeMaps (ms : List FreqMap) : keysNodup (mergeMaps ms) :=
  keysNodup_mergeAll ms [] (by simp [keysNodup])

theorem mapGet_eq_none_of_not_mem (m : FreqMap) (k : String)
    (h : k ∉ m.map Prod.fst) : mapGet m k = none := by
  induction m with
  | nil => rfl
  | cons p rest ih =>
    obtain ⟨k', v'⟩ := p
    simp only [List.map_cons, List.mem_cons] at h
    push_neg at h
    simp only [mapGet, if_neg (Ne.symm h.1)]
    exact ih h.2

theorem getCount_of_not_mem (m : FreqMap) (k : String)
    (h : k ∉ m.map Prod.fst) : getCount m k = 0 := by
  simp [getCount, mapGet_eq_none_of_not_mem m k h]

theorem entrySum_of_not_mem (m : FreqMap) (t : String)
    (h : t ∉ m.map Prod.fst) : entrySum m t = 0 := by
  induction m with
  | nil => rfl
  | cons p rest ih =>
    obtain ⟨k, v⟩ := p
    simp only [List.map_cons, List.mem_cons] at h
    push_neg at h
    simp [entrySum, Ne.symm h.1, ih h.2]

theorem entrySum_eq_getCount (m : FreqMap) (h : keysNodup m) (t : String) :
    entrySum m t = getCount m t := by
  induction m with
  | nil => rfl
  | cons p rest ih =>
    obtain ⟨k, v⟩ := p
    unfold keysNodup at h
    simp only [List.map_cons, List.nodup_cons] at h
    rw [entrySum, getCount_cons]
    by_cases hk : k = t
    · subst hk
      simp [entrySum_of_not_mem rest k h.1]
    · simp [hk, ih h.2]

theorem mapSet_of_not_mem (m : FreqMap) (k : String) (v : Nat)
    (h : k ∉ m.map Prod.fst) : mapSet m k v = m ++ [(k, v)] := by
  induction m with
  | nil => rfl
  | cons p rest ih =>
    obtain ⟨k', v'⟩ := p
    simp only [List.map_cons, List.mem_cons] at h
    push_neg at h
    simp [mapSet, Ne.symm h.1, ih h.2]

theorem mergeOne_eq_append (m : FreqMap) :
    ∀ acc : FreqMap, keysNodup m →
      (∀ k ∈ m.map Prod.fst, k ∉ acc.map Prod.fst) →
      mergeOne acc m = acc ++ m := by
  induction m with
  | nil => intro acc _ _; simp [mergeOne]
  | cons p rest ih =>
    intro acc hnd hdis
    obtain ⟨w, c⟩ := p
    unfold keysNodup at hnd
    simp only [List.map_cons, List.nodup_cons] at hnd
    have hw : w ∉ acc.map Prod.fst := hdis w (by simp)
    have hget : getCount acc w = 0 := getCount_of_not_mem acc w hw
    simp only [mergeOne, hget, Nat.zero_add, mapSet_of_not_mem acc w c hw]
    rw [ih (acc ++ [(w, c)]) hnd.2]
    · simp
    · intro k hk hmem
      rw [List.map_append] at hmem
      rcases List.mem_append.mp hmem with h1 | h2
      · exact hdis k (by simp [hk]) h1
      · simp only [List.map_cons, List.map_nil, List.mem_singleton] at h2
        exact hnd.1 (h2 ▸ hk)

theorem setAll_eq_append (m : FreqMap) :
    ∀ acc : FreqMap, keysNodup m →
      (∀ k ∈ m.map Prod.fst, k ∉ acc.map Prod.fst) →
      m.foldl (fun a p => mapSet a p.1 p.2) acc = acc ++ m := by
  induction m with
  | nil => intro acc _ _; simp
  | cons p rest ih =>
    intro acc hnd hdis
    obtain ⟨w, c⟩ := p
    unfold keysNodup at hnd
    simp only [List.map_cons, List.nodup_cons] at hnd
    have hw : w ∉ acc.map Prod.fst := hdis w (by simp)
    simp only [List.foldl_cons, mapSet_of_not_mem acc w c hw]
    rw [ih (acc ++ [(w, c)]) hnd.2]
    · simp
    · intro k hk hmem
      rw [List.map_append] at hmem
      rcases List.mem_append.mp hmem with h1 | h2
      · exact hdis k (by simp [hk]) h1
      · simp only [List.map_cons, List.map_nil, List.mem_singleton] at h2
        exact hnd.1 (h2 ▸ hk)

theorem sumCounts_nil : sumCounts [] = 0 := rfl

theorem sumCounts_cons (k : String) (v : Nat) (rest : FreqMap) :
    sumCounts ((k, v) :: rest) = v + sumCounts rest := by
  simp [sumCounts]

theorem sumCounts_mapSet_add (m : FreqMap) (k : String) (c : Nat) :
    sumCounts (mapSet m k (getCount m k + c)) = sumCounts m + c := by
  induction m with
  | nil => simp [mapSet, sumCounts, getCount_nil]
  | cons p rest ih =>
    obtain ⟨k', v'⟩ := p
    by_cases hk : k' = k
    · subst hk
      have hset : mapSet ((k', v') :: rest) k' (v' + c) = (k', v' + c) :: rest := by
        simp [mapSet]
      rw [getCount_cons, if_pos rfl, hset, sumCounts_cons, sumCounts_cons]
      omega
    · simp only [mapSet, if_neg hk, getCount_cons, if_neg hk, sumCounts_cons, ih]
      omega

theorem sumCounts_addWord (m : FreqMap) (w : String) :
    sumCounts (addWord m w) = sumCounts m + 1 := by
  simpa [addWord] using sumCounts_mapSet_add m w 1

theorem sumCounts_mergeOne (m : FreqMap) :
    ∀ acc : FreqMap, sumCounts (mergeOne acc m) = sumCounts acc + sumCounts m := by
  induction m with
  | nil => intro acc; simp [mergeOne, sumCounts_nil]
  | cons p rest ih =>
    intro acc
    obtain ⟨w, c⟩ := p
    simp only [mergeOne, ih, sumCounts_mapSet_add, sumCounts_cons]
    omega

theorem sumCounts_mergeMaps_pair (a b : FreqMap) :
    sumCounts (mergeMaps [a, b]) = sumCounts a + sumCounts b := by
  simp only [mergeMaps, mergeAll, sumCounts_mergeOne, sumCounts_nil]
  omega

theorem isWsChar_eq_false_of_isTokenChar (c : Char) (h : isTokenChar c = true) :
    isWsChar c = false := by
  rw [Bool.eq_false_iff]
  intro hw
  simp only [isTokenChar, isWordChar, isAccentChar, accentLowerCodes, accentUpperCodes,
    Bool.or_eq_true, Bool.and_eq_true, decide_eq_true_eq, List.mem_cons,
    List.not_mem_nil, or_false] at h
  simp only [isWsChar, Bool.or_eq_true, Bool.and_eq_true, decide_eq_true_eq] at hw
  omega

theorem isKeepChar_of_isTokenChar (c : Char) (h : isTokenChar c = true) :
    isKeepChar c = true := by
  simp only [isTokenChar, Bool.or_eq_true] at h
  simp only [isKeepChar, Bool.or_eq_true]
  tauto

theorem replaceChar_eq_self_of_isTokenChar (c : Char) (h : isTokenChar c = true) :
    replaceChar c = c := by
  simp [replaceChar, isKeepChar_of_isTokenChar c h]

theorem wsNeg_replaceChar (c : Char) : (!(isWsChar (replaceChar c))) = isTokenChar c := by
  by_cases hk : isKeepChar c = true
  · rw [replaceChar, if_pos hk]
    by_cases ht : isTokenChar c = true
    · rw [ht, isWsChar_eq_false_of_isTokenChar c ht]
      rfl
    · have ht' : isTokenChar c = false := Bool.eq_false_iff.mpr ht
      have hw : isWsChar c = true := by
        simp only [isKeepChar, Bool.or_eq_true] at hk
        simp only [isTokenChar, Bool.or_eq_true] at ht
        tauto
      rw [ht', hw]
      rfl
  · have hr : replaceChar c = ' ' := by simp [replaceChar, hk]
    have ht : isTokenChar c = false := by
      rw [Bool.eq_false_iff]
      intro h
      exact hk (isKeepChar_of_isTokenChar c h)
    rw [hr, ht]
    decide

theorem runsAux_map_replace (l : List Char) :
    ∀ acc : List Char,
      runsAux (fun c => !(isWsChar c)) (l.map replaceChar) acc = runsAux isTokenChar l acc := by
  induction l with
  | nil => intro acc; rfl
  | cons c rest ih =>
    intro acc
    simp only [List.map_cons, runsAux, wsNeg_replaceChar]
    by_cases ht : isTokenChar c = true
    · rw [ht]
      simp only [if_pos rfl]
      rw [replaceChar_eq_self_of_isTokenChar c ht]
      exact ih _
    · have ht' : isTokenChar c = false := Bool.eq_false_iff.mpr ht
      rw [ht']
      simp only [Bool.false_eq_true, if_false]
      by_cases ha : acc.isEmpty
      · simp [ha, ih]
      · simp [ha, ih]

theorem filter_splitWsAux (l : List Char) :
    ∀ (acc : List Char) (inSep : Bool), (inSep = true → acc = []) →
      (splitWsAux l acc inSep).filter (fun cs => decide (0 < cs.length)) =
        runsAux (fun c => !(isWsChar c)) l acc := by
  induction l with
  | nil =>
    intro acc inSep hinv
    cases inSep
    · cases acc with
      | nil => simp [splitWsAux, runsAux]
      | cons a as => simp [splitWsAux, runsAux]
    · have : acc = [] := hinv rfl
      subst this
      simp [splitWsAux, runsAux]
  | cons c rest ih =>
    intro acc inSep hinv
    by_cases hc : isWsChar c = true
    · cases inSep
      · simp only [splitWsAux, if_pos hc, Bool.false_eq_true, if_false]
        rw [List.filter_cons]
        simp only [runsAux, hc, Bool.not_true, Bool.false_eq_true, if_false]
        simp only [ih [] true (fun _ => rfl)]
        cases acc with
        | nil => simp
        | cons a as => simp
      · have hacc : acc = [] := hinv rfl
        subst hacc
        simp only [splitWsAux, if_pos hc, if_pos rfl]
        simp only [runsAux, hc, Bool.not_true, Bool.false_eq_true, if_false,
          List.isEmpty_nil, if_pos rfl]
        exact ih [] true (fun _ => rfl)
    · have hc' : isWsChar c = false := Bool.eq_false_iff.mpr hc
      simp only [splitWsAux, hc', Bool.false_eq_true, if_false, runsAux, Bool.not_false,
        if_pos rfl]
      exact ih (c :: acc) false (fun h => nomatch h)

theorem normalizeLine_eq_spec (line : String) : normalizeLine line = normalizeLineSpec line := by
  unfold normalizeLine normalizeLineSpec
  rw [List.filter_map]
  have hcomp : ((fun w : String => decide (0 < w.length)) ∘ fun cs => String.mk cs) =
      (fun cs : List Char => decide (0 < cs.length)) := rfl
  rw [hcomp, filter_splitWsAux _ [] false (fun h => nomatch h), runsAux_map_replace]

theorem one_le_effectiveWorkers (M : Int) (n U : Nat) : 1 ≤ effectiveWorkers M n U := by
  unfold effectiveWorkers
  have h : (1 : Int) ≤ max 1 (min M (min (n : Int) (U : Int))) := le_max_left _ _
  omega

theorem effectiveWorkers_eq_clamped (M : Int) (n U : Nat) :
    (effectiveWorkers M n U : Int) = max 1 (min M (min (n : Int) (U : Int))) := by
  unfold effectiveWorkers
  rw [Int.toNat_of_nonneg]
  exact le_trans zero_le_one (le_max_left _ _)

theorem mkBatchesAux_nil (E fuel : Nat) : mkBatchesAux E fuel ([] : List α) = [] := by
  cases fuel <;> rfl

theorem flatten_mkBatchesAux (E : Nat) :
    ∀ (fuel : Nat) (files : List α), files.length ≤ fuel →
      (mkBatchesAux E fuel files).flatten = files := by
  intro fuel
  induction fuel with
  | zero =>
    intro files h
    cases files with
    | nil => rfl
    | cons f r => simp at h
  | succ fuel ih =>
    intro files h
    cases files with
    | nil => rfl
    | cons f rest =>
      simp only [mkBatchesAux, List.flatten_cons]
      rw [ih (rest.drop (E - 1)) (by simp only [List.length_drop]; simp at h; omega)]
      simp [List.take_append_drop]

theorem flatten_mkBatches (E : Nat) (files : List α) :
    (mkBatches E files).flatten = files :=
  flatten_mkBatchesAux E files.length files le_rfl

theorem mkBatchesAux_sizes (E : Nat) (hE : 1 ≤ E) :
    ∀ (fuel : Nat) (files : List α) (b : List α), b ∈ mkBatchesAux E fuel files →
      b.length ≤ E ∧ b ≠ [] := by
  intro fuel
  induction fuel with
  | zero =>
    intro files b hb
    cases files <;> simp [mkBatchesAux] at hb
  | succ fuel ih =>
    intro files b hb
    cases files with
    | nil => simp [mkBatchesAux] at hb
    | cons f rest =>
      simp only [mkBatchesAux, List.mem_cons] at hb
      rcases hb with rfl | hb
      · refine ⟨?_, by simp⟩
        have := List.length_take (E - 1) rest
        simp only [List.length_cons, this]
        omega
      · exact ih _ b hb

theorem mkBatchesAux_dropLast (E : Nat) (hE : 1 ≤ E) :
    ∀ (fuel : Nat) (files : List α), files.length ≤ fuel →
      ∀ b ∈ (mkBatchesAux E fuel files).dropLast, b.length = E := by
  intro fuel
  induction fuel with
  | zero =>
    intro files h b hb
    cases files with
    | nil => simp [mkBatchesAux] at hb
    | cons f r => simp at h
  | succ fuel ih =>
    intro files h b hb
    cases files with
    | nil => simp [mkBatchesAux] at hb
    | cons f rest =>
      simp only [mkBatchesAux] at hb
      cases hdrop : mkBatchesAux E fuel (rest.drop (E - 1)) with
      | nil => rw [hdrop] at hb; simp at hb
      | cons b0 bs =>
        rw [hdrop, List.dropLast_cons₂, List.mem_cons] at hb
        rcases hb with rfl | hb
        · have hne : rest.drop (E - 1) ≠ [] := by
            intro hnil
            rw [hnil, mkBatchesAux_nil] at hdrop
            exact nomatch hdrop
          have hlen : E - 1 < rest.length := by
            by_contra hge
            push_neg at hge
            exact hne (List.drop_eq_nil_of_le hge)
          simp only [List.length_cons, List.length_take]
          omega
        · refine ih (rest.drop (E - 1)) ?_ b (by rw [hdrop]; exact hb)
          simp only [List.length_drop]
          simp at h
          omega

theorem foldl_map_flatten {α β γ : Type} (w : α → γ) (f : β → γ → β) :
    ∀ (L : List (List α)) (init : β),
      L.foldl (fun st b => (b.map w).foldl f st) init = ((L.flatten).map w).foldl f init := by
  intro L
  induction L with
  | nil => intro init; rfl
  | cons b rest ih =>
    intro init
    simp only [List.foldl_cons, List.flatten_cons, List.map_append, List.foldl_append, ih]

theorem successSpec_nil (fs : FS) : successSpec fs [] = [] := rfl

theorem failedSpec_nil (fs : FS) : failedSpec fs [] = [] := rfl

theorem transmittedSum_nil (fs : FS) : transmittedSum fs [] = 0 := rfl

theorem processFold_fields (fs : FS) :
    ∀ (files : List String) (init : AggregateResult),
      ((files.map (runWorker fs)).foldl applyResult init).successful =
          init.successful ++ successSpec fs files ∧
      ((files.map (runWorker fs)).foldl applyResult init).failed =
          init.failed ++ failedSpec fs files ∧
      ((files.map (runWorker fs)).foldl applyResult init).totalWords =
          init.totalWords + ((successSpec fs files).map SuccessEntry.totalWords).sum ∧
      ((files.map (runWorker fs)).foldl applyResult init).totalLinesProcessed =
          init.totalLinesProcessed + ((successSpec fs files).map SuccessEntry.linesProcessed).sum ∧
      ((files.map (runWorker fs)).foldl applyResult init).totalUniqueWords =
          init.totalUniqueWords ∧
      sumCounts ((files.map (runWorker fs)).foldl applyResult init).combinedWordMap =
          sumCounts init.combinedWordMap + transmittedSum fs files := by
  intro files
  induction files with
  | nil =>
    intro init
    simp [successSpec, failedSpec, transmittedSum]
  | cons p rest ih =>
    intro init
    simp only [List.map_cons, List.foldl_cons]
    cases hcw : countWords fs p with
    | ok r =>
      have hw : runWorker fs p =
          WorkerMsg.success p ⟨mapToObject r.wordMap, r.totalWords, r.uniqueWords,
            r.linesProcessed⟩ := by
        unfold runWorker
        rw [hcw]
      rw [hw]
      obtain ⟨h1, h2, h3, h4, h5, h6⟩ := ih (applyResult init (WorkerMsg.success p
        ⟨mapToObject r.wordMap, r.totalWords, r.uniqueWords, r.linesProcessed⟩))
      refine ⟨?_, ?_, ?_, ?_, ?_, ?_⟩
      · rw [h1]
        simp [applyResult, successSpec, List.filterMap_cons, hcw]
      · rw [h2]
        simp [applyResult, failedSpec, List.filterMap_cons, hcw]
      · rw [h3]
        simp only [applyResult, successSpec, List.filterMap_cons, hcw]
        simp
        omega
      · rw [h4]
        simp only [applyResult, successSpec, List.filterMap_cons, hcw]
        simp
        omega
      · rw [h5]
        simp [applyResult]
      · rw [h6]
        simp only [applyResult, transmittedSum, List.filterMap_cons, hcw]
        rw [sumCounts_mergeMaps_pair]
        simp [transmittedSum]
        omega
    | error e =>
      have hw : runWorker fs p = WorkerMsg.failure p e := by
        unfold runWorker
        rw [hcw]
      rw [hw]
      obtain ⟨h1, h2, h3, h4, h5, h6⟩ := ih (applyResult init (WorkerMsg.failure p e))
      refine ⟨?_, ?_, ?_, ?_, ?_, ?_⟩
      · rw [h1]
        simp [applyResult, successSpec, List.filterMap_cons, hcw]
      · rw [h2]
        simp [applyResult, failedSpec, List.filterMap_cons, hcw]
      · rw [h3]
        simp [applyResult, successSpec, List.filterMap_cons, hcw]
      · rw [h4]
        simp [applyResult, successSpec, List.filterMap_cons, hcw]
      · rw [h5]
        simp [applyResult]
      · rw [h6]
        simp [applyResult, transmittedSum, List.filterMap_cons, hcw]

theorem processFilesInParallel_fields (fs : FS) (files : List String)
    (maxWorkers : Option Int) (numCPUs : Nat) :
    (processFilesInParallel fs files maxWorkers numCPUs).successful = successSpec fs files ∧
    (processFilesInParallel fs files maxWorkers numCPUs).failed = failedSpec fs files ∧
    (processFilesInParallel fs files maxWorkers numCPUs).totalWords =
        ((successSpec fs files).map SuccessEntry.totalWords).sum ∧
    (processFilesInParallel fs files maxWorkers numCPUs).totalLinesProcessed =
        ((successSpec fs files).map SuccessEntry.linesProcessed).sum ∧
    sumCounts (processFilesInParallel fs files maxWorkers numCPUs).combinedWordMap =
        transmittedSum fs files ∧
    (processFilesInParallel fs files maxWorkers numCPUs).totalUniqueWords =
        (processFilesInParallel fs files maxWorkers numCPUs).combinedWordMap.length := by
  cases files with
  | nil =>
    simp [processFilesInParallel, emptyAggregate, successSpec, failedSpec, transmittedSum,
      sumCounts]
  | cons f rest =>
    have hne : ((f :: rest : List String)).isEmpty = false := rfl
    unfold processFilesInParallel
    rw [hne]
    simp only [Bool.false_eq_true, if_false]
    have hst : (mkBatches (effectiveWorkers (maxWorkers.getD (numCPUs : Int))
          (f :: rest).length numCPUs) (f :: rest)).foldl
        (fun st batch => (batch.map (runWorker fs)).foldl applyResult st) emptyAggregate =
        ((f :: rest).map (runWorker fs)).foldl applyResult emptyAggregate := by
      rw [foldl_map_flatten, flatten_mkBatches]
    rw [hst]
    obtain ⟨h1, h2, h3, h4, h5, h6⟩ := processFold_fields fs (f :: rest) emptyAggregate
    refine ⟨?_, ?_, ?_, ?_, ?_, trivial⟩
    · simpa [emptyAggregate] using h1
    · simpa [emptyAggregate] using h2
    · simpa [emptyAggregate] using h3
    · simpa [emptyAggregate] using h4
    · simpa [emptyAggregate, sumCounts] using h6

theorem wordFold_invariant (ws : List String) :
    ∀ st : FreqMap × Nat, sumCounts st.1 = st.2 →
      sumCounts ((ws.foldl (fun st w => (addWord st.1 w, st.2 + 1)) st).1) =
        (ws.foldl (fun st w => (addWord st.1 w, st.2 + 1)) st).2 := by
  induction ws with
  | nil => intro st h; exact h
  | cons w rest ih =>
    intro st h
    simp only [List.foldl_cons]
    exact ih _ (by simp [sumCounts_addWord, h])

theorem linesFold_invariant (lines : List String) :
    ∀ st : FreqMap × Nat, sumCounts st.1 = st.2 →
      sumCounts ((lines.foldl countLine st).1) = (lines.foldl countLine st).2 := by
  induction lines with
  | nil => intro st h; exact h
  | cons l rest ih =>
    intro st h
    simp only [List.foldl_cons]
    refine ih _ ?_
    unfold countLine
    exact wordFold_invariant _ _ h

theorem countWords_totalWords_eq_sumCounts (fs : FS) (p : String) (r : CountResult)
    (h : countWords fs p = Except.ok r) : r.totalWords = sumCounts r.wordMap := by
  cases hfs : fs p with
  | none => simp [countWords, hfs] at h
  | some e =>
    cases e with
    | directory => simp [countWords, hfs] at h
    | file lines =>
      simp only [countWords, hfs] at h
      cases h
      exact (linesFold_invariant lines ([], 0) rfl).symm

/-- C1: the merge operation on frequency maps is associative and commutative
at the level of the token-to-count mapping: `merge(merge(A,B),C)` and
`merge(A,merge(B,C))` assign every token the same count, merging a
collection in any order yields identical counts, and the merged count of a
token is the sum of the contributing maps' counts for it (absence read as
zero). -/
theorem mergeMaps_assoc_comm (A B C : FreqMap) (ms ms' : List FreqMap)
    (t s u : String) (hperm : ms.Perm ms') (hnd : ∀ m ∈ ms, keysNodup m) :
    getCount (mergeMaps [mergeMaps [A, B], C]) t =
        getCount (mergeMaps [A, mergeMaps [B, C]]) t ∧
    getCount (mergeMaps ms) s = getCount (mergeMaps ms') s ∧
    getCount (mergeMaps ms) u = (ms.map (fun m => getCount m u)).sum := by
  refine ⟨?_, ?_, ?_⟩
  · rw [getCount_mergeMaps, getCount_mergeMaps]
    simp only [List.map_cons, List.map_nil, List.sum_cons, List.sum_nil]
    rw [entrySum_eq_getCount _ (keysNodup_mergeMaps [A, B]) t,
        entrySum_eq_getCount _ (keysNodup_mergeMaps [B, C]) t,
        getCount_mergeMaps, getCount_mergeMaps]
    simp only [List.map_cons, List.map_nil, List.sum_cons, List.sum_nil]
    omega
  · rw [getCount_mergeMaps, getCount_mergeMaps]
    exact (hperm.map (fun m => entrySum m s)).sum_eq
  · rw [getCount_mergeMaps]
    congr 1
    exact List.map_congr_left (fun m hm => entrySum_eq_getCount m (hnd m hm) u)

theorem mergeMaps_assoc_comm_witness :
    getCount (mergeMaps [mergeMaps [[("a", 1), ("b", 2)], [("b", 3)]], [("a", 5), ("c", 7)]])
        "b" =
      getCount (mergeMaps [[("a", 1), ("b", 2)], mergeMaps [[("b", 3)], [("a", 5), ("c", 7)]]])
        "b" ∧
    getCount (mergeMaps [[("a", 1), ("b", 2)], [("b", 3)]]) "b" =
      getCount (mergeMaps [[("b", 3)], [("a", 1), ("b", 2)]]) "b" ∧
    getCount (mergeMaps [[("a", 1), ("b", 2)], [("b", 3)]]) "b" =
      ([[("a", 1), ("b", 2)], [("b", 3)]].map (fun m => getCount m "b")).sum :=
  mergeMaps_assoc_comm [("a", 1), ("b", 2)] [("b", 3)] [("a", 5), ("c", 7)]
    [[("a", 1), ("b", 2)], [("b", 3)]] [[("b", 3)], [("a", 1), ("b", 2)]] "b" "b" "b"
    (by decide) (by decide)

/-- C2 (amended): for every input line the normalizer returns exactly the
sequence obtained by lowercasing the line, replacing every character that
is not an ASCII letter, one of the regex class's enumerated accented
letters (áéíóúñüàèìòùâêîôûäëïöü and their uppercase forms), a
digit/underscore-class character, or whitespace with a single space,
splitting on runs of whitespace, and discarding empty results; in
particular `"Hello, hello WORLD!"` yields `["hello","hello","world"]`.
(The claim's unrestricted `letter (including accented letters)` fails on
the code: accented letters outside the enumerated class are separators,
see the counterexample below.) -/
theorem normalizeLine_spec_correct :
    (∀ line : String, normalizeLine line = normalizeLineSpec line) ∧
    normalizeLine "Hello, hello WORLD!" = ["hello", "hello", "world"] :=
  ⟨normalizeLine_eq_spec, by decide⟩

/-- C2 counterexample: the claim's algorithm and the code disagree on the
line `"ça va"` — the code replaces the accented letter `ç` with a space
and returns `["a", "va"]`, while the algorithm the claim describes keeps
`ç` as a letter and returns `["ça", "va"]`; hence the claim's universal
statement is false of the code. -/
theorem normalizeLine_claim_counterexample :
    normalizeLine "ça va" = ["a", "va"] ∧
    normalizeLineClaim "ça va" = ["ça", "va"] ∧
    ¬ (∀ line : String, normalizeLine line = normalizeLineClaim line) := by
  refine ⟨by decide, by decide, ?_⟩
  intro h
  exact absurd (h "ça va") (by decide)

theorem mkBatchesAux_getElem {α : Type} (E : Nat) (hE : 1 ≤ E) :
    ∀ (fuel : Nat) (files : List α), files.length ≤ fuel → ∀ i : Nat,
      (mkBatchesAux E fuel files)[i]? =
        if E * i < files.length then some ((files.drop (E * i)).take E) else none := by
  intro fuel
  induction fuel with
  | zero =>
    intro files h i
    cases files with
    | nil => simp [mkBatchesAux]
    | cons f r => simp at h
  | succ fuel ih =>
    intro files h i
    cases files with
    | nil => simp [mkBatchesAux]
    | cons f rest =>
      cases i with
      | zero =>
        simp only [mkBatchesAux, List.getElem?_cons_zero, Nat.mul_zero, List.drop_zero]
        rw [if_pos (show 0 < (f :: rest).length by simp)]
        cases E with
        | zero => omega
        | succ e => simp [List.take_succ_cons]
      | succ j =>
        simp only [mkBatchesAux, List.getElem?_cons_succ]
        rw [ih (rest.drop (E - 1))
          (by simp only [List.length_drop]; simp only [List.length_cons] at h; omega) j]
        simp only [List.length_drop, Nat.mul_succ]
        by_cases hc : E * j < rest.length - (E - 1)
        · rw [if_pos hc, if_pos (by simp only [List.length_cons]; omega)]
          have hd : (f :: rest).drop (E * j + E) = rest.drop (E * j + (E - 1)) := by
            have h1 : E * j + E = (E * j + (E - 1)) + 1 := by omega
            rw [h1, List.drop_succ_cons]
          have hdd : (rest.drop (E - 1)).drop (E * j) = rest.drop (E * j + (E - 1)) := by
            rw [List.drop_drop, Nat.add_comm]
          rw [hd, hdd]
        · rw [if_neg hc, if_neg (by simp only [List.length_cons]; omega)]

theorem mkBatches_getElem {α : Type} (E : Nat) (hE : 1 ≤ E) (files : List α) (i : Nat) :
    (mkBatches E files)[i]? =
      if E * i < files.length then some ((files.drop (E * i)).take E) else none :=
  mkBatchesAux_getElem E hE files.length files le_rfl i

/-- C3: the scheduler's effective concurrency is
`max(1, min(maxWorkers, fileCount, numCPUs))`, it cuts the ordered file
list into consecutive order-preserving batches of that size with only the
last batch possibly smaller — batch `i` is exactly the slice
`files.slice(i*E, i*E + E)` of the loop — and 10 files under configured
concurrency 4 with 8 available units give effective concurrency 4 and 3
batches of sizes 4, 4, 2. -/
theorem scheduler_batching (M : Int) (U : Nat) (files : List String) :
    ((effectiveWorkers M files.length U : Nat) : Int) =
        max 1 (min M (min (files.length : Int) (U : Int))) ∧
    (mkBatches (effectiveWorkers M files.length U) files).flatten = files ∧
    (∀ b ∈ mkBatches (effectiveWorkers M files.length U) files,
        b.length ≤ effectiveWorkers M files.length U ∧ b ≠ []) ∧
    (∀ b ∈ (mkBatches (effectiveWorkers M files.length U) files).dropLast,
        b.length = effectiveWorkers M files.length U) ∧
    effectiveWorkers 4 10 8 = 4 ∧
    (mkBatches 4 (List.range 10)).map List.length = [4, 4, 2] ∧
    (∀ i : Nat, (mkBatches (effectiveWorkers M files.length U) files)[i]? =
        if effectiveWorkers M files.length U * i < files.length then
          some ((files.drop (effectiveWorkers M files.length U * i)).take
            (effectiveWorkers M files.length U))
        else none) ∧
    (mkBatches 4 (List.range 10)).length = 3 := by
  refine ⟨effectiveWorkers_eq_clamped M files.length U, flatten_mkBatches _ files, ?_, ?_,
    by decide, by decide, ?_, by decide⟩
  · intro b hb
    exact mkBatchesAux_sizes _ (one_le_effectiveWorkers M files.length U) _ _ b hb
  · intro b hb
    exact mkBatchesAux_dropLast _ (one_le_effectiveWorkers M files.length U)
      files.length files le_rfl b hb
  · intro i
    exact mkBatches_getElem _ (one_le_effectiveWorkers M files.length U) files i

theorem scheduler_batching_witness :
    ((["x", "y"] : List String).length ≤ effectiveWorkers 2 (["x", "y", "z"] : List String).length 8 ∧
      (["x", "y"] : List String) ≠ []) ∧
    (["x", "y"] : List String).length = effectiveWorkers 2 (["x", "y", "z"] : List String).length 8 :=
  ⟨(scheduler_batching 2 8 ["x", "y", "z"]).2.2.1 ["x", "y"] (by decide),
   (scheduler_batching 2 8 ["x", "y", "z"]).2.2.2.1 ["x", "y"] (by decide)⟩

/-- C4: per-file errors are isolated — the run records exactly the failing
files (with their error) in the failed list and exactly the successful
files in the successful list, both in input order, and the totals sum over
the successes alone; with three files of which one does not exist, the
failed list is the single `notFound` entry and the two successes carry the
totals. -/
theorem error_isolation (fs : FS) (files : List String) (maxWorkers : Option Int)
    (numCPUs : Nat) :
    (processFilesInParallel fs files maxWorkers numCPUs).failed = failedSpec fs files ∧
    (processFilesInParallel fs files maxWorkers numCPUs).successful = successSpec fs files ∧
    (processFilesInParallel fs files maxWorkers numCPUs).totalWords =
        ((successSpec fs files).map SuccessEntry.totalWords).sum ∧
    (processFilesInParallel fs files maxWorkers numCPUs).totalLinesProcessed =
        ((successSpec fs files).map SuccessEntry.linesProcessed).sum ∧
    (processFilesInParallel fsThree ["a.txt", "b.txt", "c.txt"] none 4).failed =
        [⟨"b.txt", CountError.notFound⟩] ∧
    (processFilesInParallel fsThree ["a.txt", "b.txt", "c.txt"] none 4).successful =
        [⟨"a.txt", 2, 2, 1⟩, ⟨"c.txt", 1, 1, 1⟩] ∧
    (processFilesInParallel fsThree ["a.txt", "b.txt", "c.txt"] none 4).totalWords = 3 ∧
    (processFilesInParallel fsThree ["a.txt", "b.txt", "c.txt"] none 4).totalLinesProcessed
        = 2 := by
  obtain ⟨h1, h2, h3, h4, h5, h6⟩ :=
    processFilesInParallel_fields fs files maxWorkers numCPUs
  exact ⟨h2, h1, h3, h4, by decide, by decide, by decide, by decide⟩

/-- C5: for every successfully scanned file `totalWords` equals the sum of
the counts of its frequency map; but the code violates the claim for the
combined aggregate map: over `fsProto` (one file whose content is the
single word `__proto__`) the aggregate's `totalWords` is 1 while the counts
of the combined map sum to 0, because the worker-boundary serialization
drops the `__proto__` entry. -/
theorem totalWords_invariant :
    (∀ (fs : FS) (p : String) (r : CountResult),
        countWords fs p = Except.ok r → r.totalWords = sumCounts r.wordMap) ∧
    (processFilesInParallel fsProto ["f.txt"] none 4).totalWords = 1 ∧
    sumCounts (processFilesInParallel fsProto ["f.txt"] none 4).combinedWordMap = 0 ∧
    (processFilesInParallel fsProto ["f.txt"] none 4).successful = [⟨"f.txt", 1, 1, 1⟩] :=
  ⟨countWords_totalWords_eq_sumCounts, by decide, by decide, by decide⟩

theorem totalWords_invariant_witness :
    (⟨[("__proto__", 1)], 1, 1, 1⟩ : CountResult).totalWords =
      sumCounts (⟨[("__proto__", 1)], 1, 1, 1⟩ : CountResult).wordMap :=
  totalWords_invariant.1 fsProto "f.txt" ⟨[("__proto__", 1)], 1, 1, 1⟩ rfl

/-- C6: given a file path, the scanner fails with `notFound` when the path
does not exist and with `isDirectory` when it names a directory — both
checks happen before the stream is opened — and on a regular file it
proceeds to scan and returns a result. -/
theorem countWords_contract (fs : FS) (p : String) :
    (fs p = none → countWords fs p = Except.error CountError.notFound) ∧
    (fs p = some FsEntry.directory → countWords fs p = Except.error CountError.isDirectory) ∧
    (∀ lines, fs p = some (FsEntry.file lines) → ∃ r, countWords fs p = Except.ok r) := by
  refine ⟨?_, ?_, ?_⟩
  · intro h
    simp [countWords, h]
  · intro h
    simp [countWords, h]
  · intro lines h
    refine ⟨⟨(lines.foldl countLine ([], 0)).1, (lines.foldl countLine ([], 0)).2,
      (lines.foldl countLine ([], 0)).1.length, lines.length⟩, ?_⟩
    simp [countWords, h]

theorem countWords_contract_witness :
    countWords fsThree "b.txt" = Except.error CountError.notFound ∧
    countWords fsDir "d" = Except.error CountError.isDirectory ∧
    (∃ r, countWords fsThree "a.txt" = Except.ok r) :=
  ⟨(countWords_contract fsThree "b.txt").1 (by decide),
   (countWords_contract fsDir "d").2.1 (by decide),
   (countWords_contract fsThree "a.txt").2.2 ["hola mundo"] (by decide)⟩

theorem pairwise_take_drop {α : Type} {R : α → α → Prop} (l : List α) (n : Nat)
    (h : l.Pairwise R) : ∀ x ∈ l.take n, ∀ y ∈ l.drop n, R x y := by
  rw [← List.take_append_drop n l] at h
  exact (List.pairwise_append.mp h).2.2

/-- C7: the top-N selector returns exactly the first `n` entries of a
descending-sorted permutation of the map's entries: the output is sorted by
count descending, its length is `min n (size m)`, `n = 0` yields the empty
sequence, `n` at least the number of distinct tokens yields all entries,
and there is a sorted reordering `all` of the map of which the output is
the `n`-prefix, every kept entry's count dominating every truncated
entry's count. -/
theorem getTopWords_spec (m : FreqMap) (n : Nat) :
    (getTopWords m n).Sorted countGe ∧
    (getTopWords m n).length = min n m.length ∧
    getTopWords m 0 = [] ∧
    (m.length ≤ n → (getTopWords m n).Perm m) ∧
    (∃ all : FreqMap, all.Perm m ∧ all.Sorted countGe ∧ getTopWords m n = all.take n ∧
        ∀ x ∈ all.take n, ∀ y ∈ all.drop n, countGe x y) := by
  refine ⟨?_, ?_, ?_, ?_, ?_⟩
  · exact (List.sorted_insertionSort countGe m).sublist (List.take_sublist _ _)
  · unfold getTopWords
    rw [List.length_take, (List.perm_insertionSort countGe m).length_eq]
  · simp [getTopWords]
  · intro hn
    unfold getTopWords
    rw [List.take_of_length_le]
    · exact List.perm_insertionSort countGe m
    · rw [(List.perm_insertionSort countGe m).length_eq]
      exact hn
  · exact ⟨m.insertionSort countGe, List.perm_insertionSort countGe m,
      List.sorted_insertionSort countGe m, rfl,
      pairwise_take_drop _ n (List.sorted_insertionSort countGe m)⟩

theorem getTopWords_spec_witness :
    (getTopWords [("a", 1), ("b", 3)] 5).Perm [("a", 1), ("b", 3)] :=
  (getTopWords_spec [("a", 1), ("b", 3)] 5).2.2.2.1 (by decide)

/-- C8: an empty input file list produces the aggregate with empty
successful and failed lists, an empty combined map and zero totals, without
launching any worker; the early return fires before any batch is formed. -/
theorem empty_input_empty_aggregate (fs : FS) (maxWorkers : Option Int) (numCPUs : Nat) :
    processFilesInParallel fs [] maxWorkers numCPUs = emptyAggregate ∧
    (processFilesInParallel fs [] maxWorkers numCPUs).successful = [] ∧
    (processFilesInParallel fs [] maxWorkers numCPUs).failed = [] ∧
    (processFilesInParallel fs [] maxWorkers numCPUs).combinedWordMap = [] ∧
    (processFilesInParallel fs [] maxWorkers numCPUs).totalWords = 0 ∧
    (processFilesInParallel fs [] maxWorkers numCPUs).totalUniqueWords = 0 ∧
    (processFilesInParallel fs [] maxWorkers numCPUs).totalLinesProcessed = 0 ∧
    workerLaunches [] maxWorkers numCPUs = 0 :=
  ⟨rfl, rfl, rfl, rfl, rfl, rfl, rfl, rfl⟩

/-- C9: the empty map is an identity for merge — merging a frequency map
with the empty map, on either side, returns exactly the original map. -/
theorem mergeMaps_empty_identity (m : FreqMap) (h : keysNodup m) :
    mergeMaps [m, []] = m ∧ mergeMaps [[], m] = m := by
  have hmo : mergeOne [] m = m := by
    have := mergeOne_eq_append m [] h (by intro k hk; simp)
    simpa using this
  constructor
  · simpa [mergeMaps, mergeAll, mergeOne] using hmo
  · simpa [mergeMaps, mergeAll, mergeOne] using hmo

theorem mergeMaps_empty_identity_witness :
    mergeMaps [[("hola", 2), ("mundo", 1)], []] = [("hola", 2), ("mundo", 1)] ∧
    mergeMaps [[], [("hola", 2), ("mundo", 1)]] = [("hola", 2), ("mundo", 1)] :=
  mergeMaps_empty_identity [("hola", 2), ("mundo", 1)] (by decide)

/-- C10: the worker-boundary serialization round trip is not lossless: for
the frequency map with the single entry `("__proto__", 1)`, the assignment
`obj["__proto__"] = 1` hits the inherited `Object.prototype` accessor and
creates no own property, so `objectToMap (mapToObject m)` is the empty map
and the pair is lost. -/
theorem objectToMap_mapToObject_proto_loss :
    objectToMap (mapToObject [("__proto__", 1)]) = [] ∧
    getCount (objectToMap (mapToObject [("__proto__", 1)])) "__proto__" = 0 ∧
    getCount [("__proto__", 1)] "__proto__" = 1 := by
  refine ⟨by decide, by decide, by decide⟩
